import Mathlib

/-!
Shallow embedding of the `brainfuck-extended` repository: the codegen crate
(`src/codegen/src/ast.rs`, `src/codegen/src/generator.rs`) and the direct
interpreter (`src/interpreter/src/main.rs`).

Modelling conventions:
* Rust `Vec<T>` becomes `List T`; the `Tokens<T>` wrapper struct is flattened
  to a plain `List T` (it has no behaviour of its own).
* Machine integers become `Nat`.  `u8`-typed cell arithmetic carries an
  explicit `% 2^w` where the Rust code wraps (`wrapping_add`/`wrapping_sub`);
  the `as u8` cast of a repeat count is an explicit `% 256`.
* `usize` arithmetic is modelled on `Nat`; `usize` subtraction is Nat
  (truncated) subtraction.  The 2^64 wraparound of `usize` is not modelled:
  every theorem that relies on a `usize` subtraction carries a hypothesis
  keeping the subtraction exact.
* Code that aborts the process (`unwrap` on a failed `checked_add`,
  `unimplemented!`, `unreachable!`, an out-of-range index) is modelled as
  `Option.none`.
-/

namespace BfSpec

/-- The eight instruction characters of `src/codegen/src/ast.rs` (the
`tokens!` invocation, lines 108-125). -/
inductive Token where
  | PointerAdd
  | PointerSub
  | ValueAdd
  | ValueSub
  | Read
  | Write
  | LoopStart
  | LoopEnd
deriving DecidableEq, Repr

/-- `Token::from_char` from `ast.rs`. -/
def Token.fromChar (c : Char) : Option Token :=
  match c with
  | '>' => some .PointerAdd
  | '<' => some .PointerSub
  | '+' => some .ValueAdd
  | '-' => some .ValueSub
  | ',' => some .Read
  | '.' => some .Write
  | '[' => some .LoopStart
  | ']' => some .LoopEnd
  | _ => none

/-- `Token::as_char` from `ast.rs`. -/
def Token.asChar (t : Token) : Char :=
  match t with
  | .PointerAdd => '>'
  | .PointerSub => '<'
  | .ValueAdd => '+'
  | .ValueSub => '-'
  | .Read => ','
  | .Write => '.'
  | .LoopStart => '['
  | .LoopEnd => ']'

/-- `<Token as TokenExt>::tokenize`: scan the source characters, keep the
instruction characters, drop everything else (`ast.rs` lines 24-36). -/
def Token.tokenize (code : List Char) : List Token :=
  code.filterMap Token.fromChar

/-- The `Repeated` run-length token of `ast.rs` (lines 185-189). -/
structure Repeated where
  token : Token
  count : Nat
deriving DecidableEq, Repr

/-- The merge condition of `<Repeated as TokenExt>::tokenize` (`ast.rs`
line 59): a token is merged with an equal successor unless it is
`LoopStart`, `LoopEnd` or `Read`. -/
def mergeable (t : Token) : Bool :=
  !(t == .LoopStart || t == .LoopEnd || t == .Read)

/-- The peek-and-consume inner loop of `<Repeated as TokenExt>::tokenize`
(`ast.rs` lines 55-70): `t` is the token taken by the outer `iter.next()`,
`count` the run length collected so far. -/
def rleRun (t : Token) (count : Nat) : List Token → List Repeated
  | [] => [⟨t, count⟩]
  | u :: rest =>
    if mergeable t && u == t then
      rleRun t (count + 1) rest
    else
      ⟨t, count⟩ :: rleRun u 1 rest

/-- `<Repeated as TokenExt>::tokenize` on an already-tokenized stream:
the outer `while let Some(token) = iter.next()` loop. -/
def Repeated.fromTokens : List Token → List Repeated
  | [] => []
  | t :: rest => rleRun t 1 rest

/-- `<Repeated as TokenExt>::tokenize` (`ast.rs` lines 48-75): first the 1:1
tokenizer, then the run-length merge. -/
def Repeated.tokenize (code : List Char) : List Repeated :=
  Repeated.fromTokens (Token.tokenize code)

/-- Expansion of a run-length stream back into singleton tokens (each
`Repeated` contributes `count` copies of its instruction, in order). -/
def expandTokens : List Repeated → List Token
  | [] => []
  | r :: rest => List.replicate r.count r.token ++ expandTokens rest

/-- The `TokenExt` trait of `ast.rs` (lines 5-13). -/
class TokenExt (T : Type) where
  token : T → Token
  count : T → Nat
  tokenize : List Char → List T

instance : TokenExt Token where
  token t := t
  count _ := 1
  tokenize := Token.tokenize

instance : TokenExt Repeated where
  token r := r.token
  count r := r.count
  tokenize := Repeated.tokenize

/-- `Segment<T>` from `ast.rs` (lines 191-195); `Executable` keeps the token
list of the Rust `Tokens<T>` wrapper. -/
inductive Segment (T : Type) where
  | Executable (tokens : List T)
  | Loop (segments : List (Segment T))

/-- The flush idiom of `segment_inner`: `if !code.is_empty() { push
Executable(code) }`. -/
def flushRun {T : Type} (code : List T) : List (Segment T) :=
  if code.isEmpty then [] else [Segment.Executable code]

/-- `Tokens::segment_inner` (`ast.rs` lines 146-182) with the pending
straight-line run `code` made an explicit argument.  Returns the segments
and the `consumed` counter.  Mirrored behaviour:
* non-bracket token: `consumed += 1`, token appended to the pending run;
* `LoopStart`: flush the pending run, recurse on the tokens after the
  bracket, skip `count + 1` tokens (`iter.nth(count)`), `consumed += count + 2`;
* `LoopEnd`: flush the pending run and return at once (the `LoopEnd` itself
  is not counted);
* exhausted slice: return with the pending run dropped (the source performs
  no final flush: `(segments, consumed)` on line 181 ignores `code`). -/
def Tokens.segmentInner [TokenExt T] : List T → List T → List (Segment T) × Nat
  | [], _code => ([], 0)
  | t :: rest, code =>
    match TokenExt.token t with
    | .LoopStart =>
      let inner := Tokens.segmentInner rest []
      let after := Tokens.segmentInner (rest.drop (inner.2 + 1)) []
      (flushRun code ++ Segment.Loop inner.1 :: after.1,
       inner.2 + 2 + after.2)
    | .LoopEnd =>
      (flushRun code, 0)
    | _ =>
      let next := Tokens.segmentInner rest (code ++ [t])
      (next.1, next.2 + 1)
  termination_by l _ => l.length
  decreasing_by all_goals (simp only [List.length_drop, List.length_cons]; omega)

/-- `Tokens::segment` (`ast.rs` lines 139-142). -/
def Tokens.segment [TokenExt T] (tokens : List T) : List (Segment T) :=
  (Tokens.segmentInner tokens []).1

/-- Concatenation of the tokens of every `Executable` segment in a pre-order
walk, each `Loop` replaced by its own fully expanded traversal. -/
def flattenSegs {T : Type} : List (Segment T) → List T
  | [] => []
  | .Executable ts :: rest => ts ++ flattenSegs rest
  | .Loop body :: rest => flattenSegs body ++ flattenSegs rest

/-- A token stream with the bracket tokens removed. -/
def stripBrackets [TokenExt T] (l : List T) : List T :=
  l.filter (fun t =>
    !(TokenExt.token t == Token.LoopStart || TokenExt.token t == Token.LoopEnd))

/-- The scan of one *level* of `segment_inner` over a region that it fully
consumes (no terminating `LoopEnd` at this level): the segments emitted so
far and the pending straight-line run left at the end of the region.  Used
to state how `segment_inner` behaves on `l ++ suffix` when `l` is a
balanced region; loop bodies inside `l` are handled by `segmentInner`
itself. -/
def scanLevel [TokenExt T] : List T → List T → List (Segment T) × List T
  | [], code => ([], code)
  | t :: rest, code =>
    match TokenExt.token t with
    | .LoopStart =>
      let inner := Tokens.segmentInner rest []
      let after := scanLevel (rest.drop (inner.2 + 1)) []
      (flushRun code ++ Segment.Loop inner.1 :: after.1, after.2)
    | .LoopEnd => ([], code)
    | _ => scanLevel rest (code ++ [t])
  termination_by l _ => l.length
  decreasing_by all_goals (simp only [List.length_drop, List.length_cons]; omega)

/-- The segments `segment_inner` produces for a balanced region that ends
at a matching `LoopEnd` (which flushes the pending run). -/
def closedSegs [TokenExt T] (l : List T) (code : List T) : List (Segment T) :=
  (scanLevel l code).1 ++ flushRun (scanLevel l code).2

/-- Bracket-balanced token sequences: empty, a non-bracket token followed by
a balanced sequence, or a `LoopStart`, a balanced body, its matching
`LoopEnd` and a balanced remainder. -/
inductive Balanced [TokenExt T] : List T → Prop where
  | nil : Balanced []
  | flat (t : T) (l : List T) :
      TokenExt.token t ≠ .LoopStart → TokenExt.token t ≠ .LoopEnd →
      Balanced l → Balanced (t :: l)
  | brak (t u : T) (body rest : List T) :
      TokenExt.token t = .LoopStart → TokenExt.token u = .LoopEnd →
      Balanced body → Balanced rest → Balanced (t :: (body ++ u :: rest))

/-- Every token inside an `Executable` segment, at any nesting depth,
satisfies `p`. -/
def allTok [TokenExt T] (p : T → Bool) : List (Segment T) → Bool
  | [] => true
  | .Executable ts :: rest => ts.all p && allTok p rest
  | .Loop body :: rest => allTok p body && allTok p rest

/-- Some token inside an `Executable` segment, at any nesting depth,
satisfies `p`. -/
def anyTok [TokenExt T] (p : T → Bool) : List (Segment T) → Bool
  | [] => false
  | .Executable ts :: rest => ts.any p || anyTok p rest
  | .Loop body :: rest => anyTok p body || anyTok p rest

/-- No `Executable` segment contains a bracket token (the precondition the
generator's `unreachable!` arm documents). -/
def noBrackets [TokenExt T] (segs : List (Segment T)) : Bool :=
  allTok (fun t =>
    !(TokenExt.token t == Token.LoopStart || TokenExt.token t == Token.LoopEnd)) segs

/-- Some `Executable` segment contains a `Read` token with repeat count
above 1 (the construct the generator rejects). -/
def hasRepeatedRead [TokenExt T] (segs : List (Segment T)) : Bool :=
  anyTok (fun t => TokenExt.token t == Token.Read && decide (1 < TokenExt.count t)) segs

/-- `n`-fold composition of a fallible step. -/
def iterOpt {α : Type} (f : α → Option α) : Nat → α → Option α
  | 0, a => some a
  | n + 1, a =>
    match f a with
    | none => none
    | some b => iterOpt f n b

/-- `File<T>` from `ast.rs` (lines 197-201). -/
structure File (T : Type) where
  segments : List (Segment T)
  needs_input : Bool

/-- `<File<T> as FromStr>::from_str` (`ast.rs` lines 206-220): tokenize,
derive `needs_input`, segment.  (`ParseFileError` has no variants, so the
Rust function always returns `Ok`; the model is total.) -/
def File.fromStr (T : Type) [TokenExt T] (s : List Char) : File T :=
  let tokens : List T := TokenExt.tokenize s
  { segments := Tokens.segment tokens
    needs_input := tokens.any (fun t => TokenExt.token t == Token.Read) }

/-! ### The code generator (`src/codegen/src/generator.rs`) -/

/-- `CellSize` (`generator.rs` lines 12-20). -/
inductive CellSize where
  | U8
  | U16
  | U32
deriving DecidableEq, Repr

/-- The modulus of a cell of the given size (`u8`/`u16`/`u32`). -/
def CellSize.modulus : CellSize → Nat
  | .U8 => 2 ^ 8
  | .U16 => 2 ^ 16
  | .U32 => 2 ^ 32

/-- `PointerSafety` (`generator.rs` lines 24-32). -/
inductive PointerSafety where
  | Wrap
  | Clamp
  | None
deriving DecidableEq, Repr

/-- `OverflowBehavior` (`generator.rs` lines 36-44). -/
inductive OverflowBehavior where
  | Wrap
  | Abort
  | None
deriving DecidableEq, Repr

/-- `EofBehavior` (`generator.rs` lines 48-54).  The fixed byte is a `u8`. -/
inductive EofBehavior where
  | NoChange
  | Fixed (b : Nat)
deriving DecidableEq, Repr

/-- The `BrainfuckToRust` generator configuration (`generator.rs` lines
56-70).  The optional fixed input is a list of ASCII byte values. -/
structure BrainfuckToRust where
  memory_size : Nat
  pointer_safety : PointerSafety
  overflow_behavior : OverflowBehavior
  cell_size : CellSize
  fixed_input : Option (List Nat)
  eof_behavior : EofBehavior

/-- One Rust statement emitted by `BrainfuckToRust::generate_statements`
(`generator.rs` lines 109-230), one constructor per emitted shape.  For the
cell statements the argument is the value of the emitted `u8` literal
`count as u8`, i.e. `count % 256`; for the pointer, read and write
statements it is the `usize` literal `count`. -/
inductive Stmt where
  /-- `pointer = (pointer + n) % MEM_SIZE;` -/
  | PtrAddWrap (n : Nat)
  /-- `pointer = (pointer + n).min(MEM_SIZE - 1);` -/
  | PtrAddClamp (n : Nat)
  /-- `pointer += n;` -/
  | PtrAddRaw (n : Nat)
  /-- `pointer = if pointer < n { MEM_SIZE - (n - pointer) } else { pointer - n };` -/
  | PtrSubWrap (n : Nat)
  /-- `pointer = pointer.max(n) - n;` -/
  | PtrSubClamp (n : Nat)
  /-- `pointer -= n;` -/
  | PtrSubRaw (n : Nat)
  /-- `tape[pointer] += k;` -/
  | CellAddRaw (k : Nat)
  /-- `tape[pointer] = tape[pointer].wrapping_add(k);` -/
  | CellAddWrapping (k : Nat)
  /-- `tape[pointer] = tape[pointer].checked_add(k).unwrap();` -/
  | CellAddChecked (k : Nat)
  /-- `tape[pointer] -= k;` -/
  | CellSubRaw (k : Nat)
  /-- `tape[pointer] = tape[pointer].wrapping_sub(k);` -/
  | CellSubWrapping (k : Nat)
  /-- `tape[pointer] = tape[pointer].checked_sub(k).unwrap();` -/
  | CellSubChecked (k : Nat)
  /-- `if let Some(c) = input.get(input_pos) { tape[pointer] = c; input_pos += n }` -/
  | ReadNoChange (n : Nat)
  /-- the same with `else { tape[pointer] = b }` -/
  | ReadFixed (n : Nat) (b : Nat)
  /-- `let c = tape[pointer].to_ascii_char().unwrap().as_char();`
      followed by `n` executions of `print!` -/
  | WriteChar (n : Nat)
  /-- `while tape[pointer] != 0 { body }` -/
  | WhileNonzero (body : List Stmt)

/-- The statement `generate_statements` emits for one token
(`generator.rs` lines 112-227).  `none` models the two process aborts:
`unimplemented!` for a `Read` with count above 1 (lines 190-192) and
`unreachable!` for a bracket token (line 223). -/
def genStatement (cfg : BrainfuckToRust) (tok : Token) (count : Nat) : Option Stmt :=
  let count_u8 := count % 256
  match tok with
  | .PointerAdd =>
    some (match cfg.pointer_safety with
      | .Wrap => .PtrAddWrap count
      | .Clamp => .PtrAddClamp count
      | .None => .PtrAddRaw count)
  | .PointerSub =>
    some (match cfg.pointer_safety with
      | .Wrap => .PtrSubWrap count
      | .Clamp => .PtrSubClamp count
      | .None => .PtrSubRaw count)
  | .ValueAdd =>
    some (match cfg.overflow_behavior with
      | .None => .CellAddRaw count_u8
      | .Wrap => .CellAddWrapping count_u8
      | .Abort => .CellAddChecked count_u8)
  | .ValueSub =>
    some (match cfg.overflow_behavior with
      | .None => .CellSubRaw count_u8
      | .Wrap => .CellSubWrapping count_u8
      | .Abort => .CellSubChecked count_u8)
  | .Read =>
    if count > 1 then none
    else
      some (match cfg.eof_behavior with
        | .NoChange => .ReadNoChange count
        | .Fixed b => .ReadFixed count b)
  | .Write => some (.WriteChar count)
  | .LoopStart => none
  | .LoopEnd => none

/-- The statement list `generate_statements` produces for an `Executable`
block's tokens (`generator.rs` lines 109-230). -/
def generateStatements [TokenExt T] (cfg : BrainfuckToRust) : List T → Option (List Stmt)
  | [] => some []
  | t :: rest =>
    match genStatement cfg (TokenExt.token t) (TokenExt.count t) with
    | none => none
    | some stmt =>
      match generateStatements cfg rest with
      | none => none
      | some stmts => some (stmt :: stmts)

/-- `BrainfuckToRust::generate_body` (`generator.rs` lines 81-107): the
emitted blocks, flattened to one statement list (a `quote!` block is pure
juxtaposition). -/
def generateBody [TokenExt T] (cfg : BrainfuckToRust) : List (Segment T) → Option (List Stmt)
  | [] => some []
  | .Executable code :: rest =>
    match generateStatements cfg code with
    | none => none
    | some stmts =>
      match generateBody cfg rest with
      | none => none
      | some restStmts => some (stmts ++ restStmts)
  | .Loop segments :: rest =>
    match generateBody cfg segments with
    | none => none
    | some body =>
      match generateBody cfg rest with
      | none => none
      | some restStmts => some (Stmt.WhileNonzero body :: restStmts)

/-- `BrainfuckToRust::generate` (`generator.rs` lines 73-79): the body of
the emitted `main` (the surrounding template is handled by `runGenerated`). -/
def generate [TokenExt T] (cfg : BrainfuckToRust) (file : File T) : Option (List Stmt) :=
  generateBody cfg file.segments

/-- The run-time state of the emitted Rust program: the tape (total
function; the emitted array has `memory_size` cells and both programs
compared by any theorem below access identical indices), the pointer, the
input cursor and the bytes printed so far. -/
structure GenState where
  tape : Nat → Nat
  pointer : Nat
  input_pos : Nat
  output : List Nat

/-- Write `v` into the cell under the pointer. -/
def GenState.setCell (s : GenState) (v : Nat) : GenState :=
  { s with tape := fun i => if i = s.pointer then v else s.tape i }

/-- Wrapping subtraction at modulus `m` (`wrapping_sub` of `k` on a cell
value `c`, both below `m`). -/
def wrapSub (m c k : Nat) : Nat :=
  (c + (m - k % m)) % m

/-- The effect of one non-loop emitted statement on the program state,
under configuration `cfg` and pre-materialized input `input`.  `none`
models a process abort: a failed `checked_add`/`checked_sub` `unwrap`, or
the `to_ascii_char().unwrap()` of a cell value that is not ASCII (at or
above 128).  Raw cell arithmetic (`OverflowBehavior::None`) is modelled
with release-build wraparound; the claims below compare cell values modulo
the configured width, on which the debug/release difference is invisible. -/
def execSimple (cfg : BrainfuckToRust) (input : List Nat) (stmt : Stmt)
    (s : GenState) : Option GenState :=
  let m := cfg.cell_size.modulus
  let msz := cfg.memory_size
  let c := s.tape s.pointer
  match stmt with
  | .PtrAddWrap n => some { s with pointer := (s.pointer + n) % msz }
  | .PtrAddClamp n => some { s with pointer := min (s.pointer + n) (msz - 1) }
  | .PtrAddRaw n => some { s with pointer := s.pointer + n }
  | .PtrSubWrap n =>
    some { s with pointer :=
      if s.pointer < n then msz - (n - s.pointer) else s.pointer - n }
  | .PtrSubClamp n => some { s with pointer := max s.pointer n - n }
  | .PtrSubRaw n => some { s with pointer := s.pointer - n }
  | .CellAddRaw k => some (s.setCell ((c + k) % m))
  | .CellAddWrapping k => some (s.setCell ((c + k) % m))
  | .CellAddChecked k => if c + k < m then some (s.setCell (c + k)) else none
  | .CellSubRaw k => some (s.setCell (wrapSub m c k))
  | .CellSubWrapping k => some (s.setCell (wrapSub m c k))
  | .CellSubChecked k => if k ≤ c then some (s.setCell (c - k)) else none
  | .ReadNoChange n =>
    match input[s.input_pos]? with
    | some b => some { s.setCell b with input_pos := s.input_pos + n }
    | Option.none => some s
  | .ReadFixed n b =>
    match input[s.input_pos]? with
    | some v => some { s.setCell v with input_pos := s.input_pos + n }
    | Option.none => some (s.setCell b)
  | .WriteChar n =>
    if c < 128 then some { s with output := s.output ++ List.replicate n c } else none
  | .WhileNonzero _ => none

/-- Execution of a statement list.  `fuel` bounds the number of loop
iterations (`none` when it runs out, and for every abort of `execSimple`). -/
def execBlock (cfg : BrainfuckToRust) (input : List Nat) :
    Nat → List Stmt → GenState → Option GenState
  | _, [], s => some s
  | fuel, .WhileNonzero body :: rest, s =>
    if s.tape s.pointer = 0 then
      execBlock cfg input fuel rest s
    else
      match fuel with
      | 0 => none
      | fuel + 1 =>
        match execBlock cfg input fuel body s with
        | none => none
        | some s1 => execBlock cfg input fuel (Stmt.WhileNonzero body :: rest) s1
  | fuel, stmt :: rest, s =>
    match execSimple cfg input stmt s with
    | none => none
    | some s1 => execBlock cfg input fuel rest s1
  termination_by fuel l _ => (fuel, l.length)

/-- The initial state of the emitted program (`generator.rs` lines 275-288:
zeroed tape, zeroed pointer, input cursor at 0). -/
def genInit : GenState :=
  { tape := fun _ => 0, pointer := 0, input_pos := 0, output := [] }

/-- Run the program emitted for `file`: the input is the configured fixed
input if present, otherwise the captured stdin when `needs_input` is set,
otherwise nothing (`BrainfuckToRust::template`, `generator.rs` lines
240-273).  Produces the bytes printed by the program. -/
def runGenerated [TokenExt T] (cfg : BrainfuckToRust) (file : File T)
    (stdin : List Nat) (fuel : Nat) : Option (List Nat) :=
  match generate cfg file with
  | none => none
  | some body =>
    let input := match cfg.fixed_input with
      | some fixed => fixed
      | Option.none => if file.needs_input then stdin else []
    match execBlock cfg input fuel body genInit with
    | none => none
    | some s => some s.output

/-- The configuration the codegen binary builds (`src/codegen/src/main.rs`
lines 75-84, with no `--fixed-input`): 8-bit cells, 30000 cells, no pointer
safety, no cell-overflow check, leave-cell-unchanged on EOF. -/
def mainConfig : BrainfuckToRust :=
  { memory_size := 30000
    pointer_safety := .None
    overflow_behavior := .None
    cell_size := .U8
    fixed_input := none
    eof_behavior := .NoChange }

/-! ### The direct interpreter (`src/interpreter/src/main.rs`) -/

namespace Interp

/-- `MEMORY_SIZE` (`main.rs` line 17). -/
def MEMORY_SIZE : Nat := 30000

/-- `MAX_POINTER` (`main.rs` line 18). -/
def MAX_POINTER : Nat := MEMORY_SIZE - 1

/-- `WRAPPING` (`main.rs` line 19): the compiled-in pointer policy. -/
def WRAPPING : Bool := false

/-- The interpreter state (`BrainfuckInterpreter`, `main.rs` lines 94-104).
Memory cells and input/output characters are byte values. -/
structure State where
  memory : Nat → Nat
  pointer : Nat
  loop_stack : List Nat
  input : List Nat
  input_pos : Nat
  code : List Char
  code_pos : Nat
  output : List Nat

/-- `BrainfuckInterpreter::new` (`main.rs` lines 411-426). -/
def init (code : List Char) (input : List Nat) : State :=
  { memory := fun _ => 0, pointer := 0, loop_stack := [], input := input,
    input_pos := 0, code := code, code_pos := 0, output := [] }

/-- Write `v` into the memory cell under the pointer. -/
def State.setMem (s : State) (v : Nat) : State :=
  { s with memory := fun i => if i = s.pointer then v else s.memory i }

/-- The result of one iteration of the `run` loop: continue, or leave the
loop (`break Ok(())` after `code_pos` passed the end). -/
inductive StepRes where
  | next (s : State)
  | halt (s : State)

/-- The `match c` dispatch of `BrainfuckInterpreter::run` (`main.rs` lines
440-489): the updated state and the `increment` flag.  `none` models a
process abort: the failed `to_ascii_char().unwrap()` of a non-ASCII cell on
`.`, and the `"unmatched ]"` error on a `]` with a nonzero cell and an
empty loop stack. -/
def execChar (c : Char) (s : State) : Option (State × Bool) :=
  match c with
  | '>' =>
    let p := s.pointer + 1
    some ({ s with pointer :=
      if WRAPPING then p % MAX_POINTER else min p MAX_POINTER }, true)
  | '<' =>
    if WRAPPING then
      some ({ s with pointer :=
        if s.pointer = 0 then MAX_POINTER else s.pointer - 1 }, true)
    else if s.pointer > 0 then
      some ({ s with pointer := s.pointer - 1 }, true)
    else
      some (s, true)
  | '+' => some (s.setMem ((s.memory s.pointer + 1) % 256), true)
  | '-' => some (s.setMem (wrapSub 256 (s.memory s.pointer) 1), true)
  | '.' =>
    if s.memory s.pointer < 128 then
      some ({ s with output := s.output ++ [s.memory s.pointer] }, true)
    else
      none
  | ',' =>
    match s.input[s.input_pos]? with
    | some b => some ({ s.setMem b with input_pos := s.input_pos + 1 }, true)
    | none => some (s, true)
  | '[' => some ({ s with loop_stack := (s.code_pos + 1) :: s.loop_stack }, true)
  | ']' =>
    if s.memory s.pointer ≠ 0 then
      match s.loop_stack with
      | [] => none
      | top :: _ => some ({ s with code_pos := top }, false)
    else
      some ({ s with loop_stack := s.loop_stack.tail }, true)
  | _ => some (s, true)

/-- The state carried by a step result. -/
def StepRes.state : StepRes → State
  | .next s => s
  | .halt s => s

/-- One iteration of `BrainfuckInterpreter::run`'s loop (`main.rs` lines
429-502), without the debugger (`run(None)`): fetch `code[code_pos]`
(`none` on an out-of-range index, a Rust panic), dispatch on the character,
then advance `code_pos` unless a `]` jumped back, and halt once `code_pos`
reaches the end. -/
def step (s : State) : Option StepRes :=
  match s.code[s.code_pos]? with
  | none => none
  | some c =>
    match execChar c s with
    | none => none
    | some (s1, increment) =>
      let s2 := if increment then { s1 with code_pos := s1.code_pos + 1 } else s1
      if s2.code_pos ≥ s.code.length then some (.halt s2) else some (.next s2)

/-- The state after `n` executed instructions; a halted interpreter stays
in its final state.  `none` propagates a panic. -/
def stepN : Nat → State → Option State
  | 0, s => some s
  | n + 1, s =>
    match step s with
    | none => none
    | some (.halt s1) => some s1
    | some (.next s1) => stepN n s1

/-- Run to completion within `fuel` iterations: `some` only when the loop
actually left through its halt condition. -/
def run : Nat → State → Option State
  | 0, _ => none
  | fuel + 1, s =>
    match step s with
    | none => none
    | some (.halt s1) => some s1
    | some (.next s1) => run fuel s1

/-- The interpreter output for a source text and an input, `none` when the
run panics or needs more than `fuel` iterations. -/
def runOut (fuel : Nat) (code : List Char) (input : List Nat) : Option (List Nat) :=
  match run fuel (init code input) with
  | none => none
  | some s => some s.output

end Interp

/-! ## Theorems -/

/-! ### Run-length tokenization (claims C3 and C6) -/

theorem expandTokens_append (a b : List Repeated) :
    expandTokens (a ++ b) = expandTokens a ++ expandTokens b := by
  induction a with
  | nil => rfl
  | cons r rest ih => simp [expandTokens, ih]

theorem expandTokens_rleRun (l : List Token) : ∀ t c,
    expandTokens (rleRun t c l) = List.replicate c t ++ l := by
  induction l with
  | nil => intro t c; simp [rleRun, expandTokens]
  | cons u rest ih =>
    intro t c
    by_cases h : (mergeable t && u == t) = true
    · have hu : u = t := by
        have := (Bool.and_eq_true _ _).mp h
        exact eq_of_beq this.2
      rw [rleRun, if_pos h, ih t (c + 1), hu, List.replicate_succ']
      simp
    · rw [rleRun, if_neg h]
      simp [expandTokens, ih u 1, List.replicate_succ]

theorem rleRun_specials (l : List Token) : ∀ t c r, r ∈ rleRun t c l →
    mergeable r.token = true ∨ r.count = 1 ∨ (r.token = t ∧ r.count = c) := by
  induction l with
  | nil =>
    intro t c r hr
    simp [rleRun] at hr
    subst hr
    right; right; exact ⟨rfl, rfl⟩
  | cons u rest ih =>
    intro t c r hr
    by_cases h : (mergeable t && u == t) = true
    · rw [rleRun, if_pos h] at hr
      have hmt : mergeable t = true := ((Bool.and_eq_true _ _).mp h).1
      rcases ih t (c + 1) r hr with h1 | h1 | h1
      · exact Or.inl h1
      · exact Or.inr (Or.inl h1)
      · exact Or.inl (h1.1 ▸ hmt)
    · rw [rleRun, if_neg h] at hr
      rcases List.mem_cons.mp hr with hr | hr
      · subst hr; right; right; exact ⟨rfl, rfl⟩
      · rcases ih u 1 r hr with h1 | h1 | h1
        · exact Or.inl h1
        · exact Or.inr (Or.inl h1)
        · exact Or.inr (Or.inl h1.2)

theorem rleRun_chain (l : List Token) : ∀ t c,
    List.Chain' (fun a b : Repeated => ¬(mergeable a.token = true ∧ b.token = a.token))
      (rleRun t c l) ∧ ∃ c2 tail, rleRun t c l = ⟨t, c2⟩ :: tail := by
  induction l with
  | nil =>
    intro t c
    exact ⟨by simp [rleRun], c, [], by simp [rleRun]⟩
  | cons u rest ih =>
    intro t c
    by_cases h : (mergeable t && u == t) = true
    · rw [rleRun, if_pos h]
      exact ih t (c + 1)
    · rw [rleRun, if_neg h]
      obtain ⟨hchain, c2, tail, heq⟩ := ih u 1
      constructor
      · rw [heq] at hchain ⊢
        refine List.Chain'.cons ?_ hchain
        intro hcontra
        exact h ((Bool.and_eq_true _ _).mpr ⟨hcontra.1, beq_iff_eq.mpr hcontra.2⟩)
      · exact ⟨c, rleRun u 1 rest, rfl⟩

/-- C3: for every source text, expanding each `Repeated` token produced by
the run-length tokenizer into `count` copies of its instruction, in order,
yields exactly the token sequence the uncompressed tokenizer produces on
the same text. -/
theorem c3_rle_expansion_round_trip (cs : List Char) :
    expandTokens (Repeated.tokenize cs) = Token.tokenize cs := by
  rw [Repeated.tokenize]
  cases h : Token.tokenize cs with
  | nil => rfl
  | cons t rest =>
    rw [Repeated.fromTokens, expandTokens_rleRun rest t 1]
    simp [List.replicate_succ]

/-- C6 counterexample: a maximal run of two consecutive `Read` instructions
is *not* merged by the run-length tokenizer (the source also excludes
`Read` from merging, not only the two loop brackets), so the tokenizer does
not merge every maximal run of identical non-bracket instructions. -/
theorem c6_read_not_merged_counterexample :
    Repeated.tokenize [',', ','] = [⟨.Read, 1⟩, ⟨.Read, 1⟩] ∧
    Repeated.tokenize [',', ','] ≠ [⟨.Read, 2⟩] := by
  constructor
  · rfl
  · intro h
    simp [Repeated.tokenize, Token.tokenize, Token.fromChar, Repeated.fromTokens,
      rleRun, mergeable] at h

/-- C6 (amended): the run-length tokenizer merges every maximal run of
consecutive identical instructions into a single `(instruction, count)`
token, and the instructions excluded from merging are loop-start, loop-end
*and read*, which always appear as singleton tokens with count 1.
Stated as: expansion reproduces the uncompressed stream, the three special
instructions only occur with count 1, and no two adjacent output tokens
carry the same mergeable instruction (each merged run is maximal). -/
theorem c6_rle_merging_amended (cs : List Char) :
    expandTokens (Repeated.tokenize cs) = Token.tokenize cs ∧
    (∀ r ∈ Repeated.tokenize cs,
      (r.token = .LoopStart ∨ r.token = .LoopEnd ∨ r.token = .Read) → r.count = 1) ∧
    List.Chain' (fun a b : Repeated => ¬(mergeable a.token = true ∧ b.token = a.token))
      (Repeated.tokenize cs) := by
  refine ⟨c3_rle_expansion_round_trip cs, ?_, ?_⟩
  · intro r hr hspecial
    rw [Repeated.tokenize] at hr
    cases h : Token.tokenize cs with
    | nil => rw [h] at hr; simp [Repeated.fromTokens] at hr
    | cons t rest =>
      rw [h, Repeated.fromTokens] at hr
      rcases rleRun_specials rest t 1 r hr with h1 | h1 | h1
      · rcases hspecial with hs | hs | hs <;> rw [hs] at h1 <;> simp [mergeable] at h1
      · exact h1
      · exact h1.2
  · rw [Repeated.tokenize]
    cases h : Token.tokenize cs with
    | nil => simp [Repeated.fromTokens]
    | cons t rest =>
      rw [Repeated.fromTokens]
      exact (rleRun_chain rest t 1).1

/-! ### The structuring pass drops a trailing run (claim C2) -/

/-- C2: the claim fails on the code, and the code contradicts the spec's
stated intent (a code bug).  On the balanced one-token stream `+` the
structurer returns an *empty* tree: `segment_inner` never flushes the
pending straight-line run when the slice is exhausted (`ast.rs` line 181
returns without pushing `code`), so the pre-order concatenation is empty
instead of the original bracket-free sequence `[+]`. -/
theorem c2_trailing_run_dropped :
    Tokens.segment [(⟨.ValueAdd, 1⟩ : Repeated)] = [] ∧
    flattenSegs (Tokens.segment [(⟨.ValueAdd, 1⟩ : Repeated)]) = [] ∧
    stripBrackets [(⟨.ValueAdd, 1⟩ : Repeated)] = [⟨.ValueAdd, 1⟩] ∧
    ([] : List Repeated) ≠ [⟨.ValueAdd, 1⟩] := by
  refine ⟨?_, ?_, by decide, by decide⟩
  · simp [Tokens.segment, Tokens.segmentInner]
  · simp [Tokens.segment, Tokens.segmentInner, flattenSegs]

/-! ### Interpreter vs. generated code (claim C1) -/

/-- C1: the claim fails on the code, and the interpreter side is the bug.
On the source `[.]` with empty input and the fixed policy set
{no pointer safety, no overflow check, EOF leaves the cell, 8-bit cells,
30000 cells} (the exact configuration `src/codegen/src/main.rs` builds),
the interpreter outputs one NUL byte — its `'['` arm only pushes the loop
stack and never skips the body when the cell is zero (`main.rs` lines
477-479) — while the program emitted by `BrainfuckToRust::generate` tests
`while tape[pointer] != 0` *before* the first iteration and outputs
nothing.  The outputs are not byte-identical. -/
theorem c1_loop_entry_divergence :
    Interp.runOut 10 ['[', '.', ']'] [] = some [0] ∧
    runGenerated mainConfig (File.fromStr Repeated ['[', '.', ']']) [] 10 = some [] ∧
    (some [0] : Option (List Nat)) ≠ some [] := by
  refine ⟨by decide, ?_, by decide⟩
  simp [runGenerated, generate, File.fromStr, TokenExt.tokenize, Repeated.tokenize,
    Token.tokenize, Token.fromChar, Repeated.fromTokens, rleRun, mergeable, flushRun,
    Tokens.segment, Tokens.segmentInner, generateBody, generateStatements, genStatement,
    TokenExt.token, TokenExt.count, execBlock, execSimple, genInit, mainConfig]

/-! ### The interpreter keeps its pointer on the tape (claim C10) -/

theorem execChar_pointer_le (c : Char) (s : Interp.State) (p : Interp.State × Bool)
    (h : Interp.execChar c s = some p) (hp : s.pointer ≤ Interp.MAX_POINTER) :
    p.1.pointer ≤ Interp.MAX_POINTER := by
  simp only [Interp.MAX_POINTER, Interp.MEMORY_SIZE] at hp ⊢
  unfold Interp.execChar at h
  split at h <;>
    (try split at h) <;>
    (try split at h) <;>
    first
      | (injection h with h1; subst h1;
         simp [Interp.State.setMem, Interp.MAX_POINTER, Interp.MEMORY_SIZE];
         try omega)
      | simp at h

theorem step_pointer_le (s : Interp.State) (r : Interp.StepRes)
    (h : Interp.step s = some r) (hp : s.pointer ≤ Interp.MAX_POINTER) :
    r.state.pointer ≤ Interp.MAX_POINTER := by
  cases hc : s.code[s.code_pos]? with
  | none => simp [Interp.step, hc] at h
  | some c =>
    cases he : Interp.execChar c s with
    | none => simp [Interp.step, hc, he] at h
    | some p =>
      obtain ⟨s1, inc⟩ := p
      have hple := execChar_pointer_le c s (s1, inc) he hp
      simp only [Interp.step, hc, he] at h
      cases inc <;>
        simp only [Bool.false_eq_true, if_true, if_false, ite_true, ite_false] at h <;>
        split at h <;>
        injection h with h1 <;>
        subst h1 <;>
        simpa [Interp.StepRes.state] using hple

theorem stepN_pointer_le (n : Nat) : ∀ s s1 : Interp.State,
    Interp.stepN n s = some s1 → s.pointer ≤ Interp.MAX_POINTER →
    s1.pointer ≤ Interp.MAX_POINTER := by
  induction n with
  | zero =>
    intro s s1 h hp
    rw [Interp.stepN] at h
    injection h with h1
    subst h1
    exact hp
  | succ n ih =>
    intro s s1 h hp
    rw [Interp.stepN] at h
    cases hstep : Interp.step s with
    | none => rw [hstep] at h; simp at h
    | some r =>
      rw [hstep] at h
      have hr := step_pointer_le s r hstep hp
      cases r with
      | halt s2 =>
        injection h with h1
        subst h1
        exact hr
      | next s2 => exact ih s2 s1 h hr

/-- C10: in every state the interpreter reaches from its initial state
(under the compiled-in `WRAPPING = false` configuration) the pointer
satisfies `pointer ≤ MEMORY_SIZE - 1` (the lower bound `0 ≤ pointer` holds
in `Nat` by construction): pointer-increment clamps at the last cell and
pointer-decrement at cell 0 is a no-op, so no instruction moves the
pointer off the tape. -/
theorem c10_pointer_invariant (code : List Char) (input : List Nat) (n : Nat)
    (s : Interp.State) (h : Interp.stepN n (Interp.init code input) = some s) :
    s.pointer ≤ Interp.MEMORY_SIZE - 1 :=
  stepN_pointer_le n _ s h (by simp [Interp.init, Interp.MAX_POINTER])

/-- C10 witness: one `>` from the initial state lands on pointer 1, inside
the tape. -/
theorem c10_pointer_invariant_witness :
    ({ memory := fun _ => 0, pointer := 1, loop_stack := [], input := [],
       input_pos := 0, code := ['>'], code_pos := 1, output := [] } :
        Interp.State).pointer ≤ Interp.MEMORY_SIZE - 1 :=
  c10_pointer_invariant ['>'] [] 1 _ rfl

/-! ### Folding a repeat count into one statement (claim C5) -/

theorem setCell_pointer (s : GenState) (v : Nat) : (s.setCell v).pointer = s.pointer := rfl

theorem setCell_tape_self (s : GenState) (v : Nat) :
    (s.setCell v).tape (s.setCell v).pointer = v := by
  simp [GenState.setCell]

theorem setCell_setCell (s : GenState) (a b : Nat) :
    (s.setCell a).setCell b = s.setCell b := by
  obtain ⟨tp, p, ip, o⟩ := s
  simp only [GenState.setCell]
  congr 1
  funext i
  by_cases h : i = p <;> simp [h]

theorem setCell_self (s : GenState) : s.setCell (s.tape s.pointer) = s := by
  obtain ⟨tp, p, ip, o⟩ := s
  simp only [GenState.setCell]
  congr 1
  funext i
  by_cases h : i = p <;> simp [h]

theorem ptrAddWrap_iter (cfg : BrainfuckToRust) (input : List Nat) (n : Nat) (hn : 1 ≤ n) :
    ∀ s : GenState, iterOpt (execSimple cfg input (.PtrAddWrap 1)) n s =
      some { s with pointer := (s.pointer + n) % cfg.memory_size } := by
  induction n, hn using Nat.le_induction with
  | base => intro s; simp [iterOpt, execSimple]
  | succ n hn ih =>
    intro s
    rw [iterOpt]
    simp only [execSimple, ih]
    congr 2
    rw [Nat.mod_add_mod]
    congr 1
    omega

theorem ptrAddClamp_iter (cfg : BrainfuckToRust) (input : List Nat) (n : Nat) (hn : 1 ≤ n) :
    ∀ s : GenState, iterOpt (execSimple cfg input (.PtrAddClamp 1)) n s =
      some { s with pointer := min (s.pointer + n) (cfg.memory_size - 1) } := by
  induction n, hn using Nat.le_induction with
  | base => intro s; simp [iterOpt, execSimple]
  | succ n hn ih =>
    intro s
    rw [iterOpt]
    simp only [execSimple, ih]
    congr 2
    omega

theorem ptrAddRaw_iter (cfg : BrainfuckToRust) (input : List Nat) (n : Nat) (hn : 1 ≤ n) :
    ∀ s : GenState, iterOpt (execSimple cfg input (.PtrAddRaw 1)) n s =
      some { s with pointer := s.pointer + n } := by
  induction n, hn using Nat.le_induction with
  | base => intro s; simp [iterOpt, execSimple]
  | succ n hn ih =>
    intro s
    rw [iterOpt]
    simp only [execSimple, ih]
    congr 2
    omega

theorem ptrSubRaw_iter (cfg : BrainfuckToRust) (input : List Nat) (n : Nat) (hn : 1 ≤ n) :
    ∀ s : GenState, iterOpt (execSimple cfg input (.PtrSubRaw 1)) n s =
      some { s with pointer := s.pointer - n } := by
  induction n, hn using Nat.le_induction with
  | base => intro s; simp [iterOpt, execSimple]
  | succ n hn ih =>
    intro s
    rw [iterOpt]
    simp only [execSimple, ih]
    congr 2
    omega

theorem ptrSubClamp_iter (cfg : BrainfuckToRust) (input : List Nat) (n : Nat) (hn : 1 ≤ n) :
    ∀ s : GenState, iterOpt (execSimple cfg input (.PtrSubClamp 1)) n s =
      some { s with pointer := s.pointer - n } := by
  induction n, hn using Nat.le_induction with
  | base => intro s; simp [iterOpt, execSimple]; omega
  | succ n hn ih =>
    intro s
    rw [iterOpt]
    simp only [execSimple, ih]
    congr 2
    omega

theorem ptrSubWrap_iter (cfg : BrainfuckToRust) (input : List Nat) (n : Nat) :
    ∀ s : GenState, n ≤ cfg.memory_size + s.pointer →
      iterOpt (execSimple cfg input (.PtrSubWrap 1)) n s =
      some { s with pointer :=
        if s.pointer < n then cfg.memory_size - (n - s.pointer) else s.pointer - n } := by
  induction n with
  | zero => intro s hb; simp [iterOpt]
  | succ n ih =>
    intro s hb
    rw [iterOpt]
    simp only [execSimple]
    rw [ih]
    · dsimp only
      congr 2
      by_cases hp : s.pointer < 1
      · simp only [if_pos hp]
        split <;> split <;> omega
      · simp only [if_neg hp]
        split <;> split <;> omega
    · dsimp only
      split <;> omega

theorem cellAddWrap_iter (cfg : BrainfuckToRust) (input : List Nat) (n : Nat) (hn : 1 ≤ n) :
    ∀ s : GenState, iterOpt (execSimple cfg input (.CellAddWrapping 1)) n s =
      some (s.setCell ((s.tape s.pointer + n) % cfg.cell_size.modulus)) := by
  induction n, hn using Nat.le_induction with
  | base => intro s; simp [iterOpt, execSimple]
  | succ n hn ih =>
    intro s
    rw [iterOpt]
    simp only [execSimple]
    rw [ih, setCell_tape_self, setCell_setCell]
    congr 2
    rw [Nat.mod_add_mod]
    congr 1
    omega

theorem cellSubWrap_iter (cfg : BrainfuckToRust) (input : List Nat) (n : Nat) (hn : 1 ≤ n) :
    n < cfg.cell_size.modulus → ∀ s : GenState,
      iterOpt (execSimple cfg input (.CellSubWrapping 1)) n s =
      some (s.setCell
        ((s.tape s.pointer + (cfg.cell_size.modulus - n)) % cfg.cell_size.modulus)) := by
  induction n, hn using Nat.le_induction with
  | base =>
    intro hm s
    simp only [iterOpt, execSimple, wrapSub]
    rw [Nat.mod_eq_of_lt hm]
  | succ n hn ih =>
    intro hm s
    rw [iterOpt]
    simp only [execSimple]
    rw [ih (by omega), setCell_tape_self, setCell_setCell]
    congr 2
    simp only [wrapSub]
    rw [Nat.mod_eq_of_lt (show 1 < cfg.cell_size.modulus by omega), Nat.mod_add_mod]
    have heq : s.tape s.pointer + (cfg.cell_size.modulus - 1) +
        (cfg.cell_size.modulus - n) =
        s.tape s.pointer + (cfg.cell_size.modulus - (n + 1)) + cfg.cell_size.modulus := by
      omega
    rw [heq, Nat.add_mod_right]

theorem cellAddChecked_iter (cfg : BrainfuckToRust) (input : List Nat) (n : Nat) (hn : 1 ≤ n) :
    ∀ s : GenState, iterOpt (execSimple cfg input (.CellAddChecked 1)) n s =
      if s.tape s.pointer + n < cfg.cell_size.modulus then
        some (s.setCell (s.tape s.pointer + n))
      else none := by
  induction n, hn using Nat.le_induction with
  | base =>
    intro s
    by_cases h : s.tape s.pointer + 1 < cfg.cell_size.modulus <;>
      simp [iterOpt, execSimple, h]
  | succ n hn ih =>
    intro s
    rw [iterOpt]
    by_cases h : s.tape s.pointer + 1 < cfg.cell_size.modulus
    · simp only [execSimple, if_pos h]
      rw [ih, setCell_tape_self, setCell_setCell]
      have heq : s.tape s.pointer + 1 + n = s.tape s.pointer + (n + 1) := by omega
      rw [heq]
    · simp only [execSimple, if_neg h]
      rw [if_neg (by omega)]

theorem cellSubChecked_iter (cfg : BrainfuckToRust) (input : List Nat) (n : Nat) (hn : 1 ≤ n) :
    ∀ s : GenState, iterOpt (execSimple cfg input (.CellSubChecked 1)) n s =
      if n ≤ s.tape s.pointer then
        some (s.setCell (s.tape s.pointer - n))
      else none := by
  induction n, hn using Nat.le_induction with
  | base =>
    intro s
    by_cases h : 1 ≤ s.tape s.pointer <;>
      simp [iterOpt, execSimple, h]
  | succ n hn ih =>
    intro s
    rw [iterOpt]
    by_cases h : 1 ≤ s.tape s.pointer
    · simp only [execSimple, if_pos h]
      rw [ih, setCell_tape_self, setCell_setCell]
      by_cases h2 : n + 1 ≤ s.tape s.pointer
      · rw [if_pos (by omega), if_pos h2]
        congr 2
        omega
      · rw [if_neg (by omega), if_neg h2]
    · simp only [execSimple, if_neg h]
      rw [if_neg (by omega)]

theorem writeChar_iter (cfg : BrainfuckToRust) (input : List Nat) (n : Nat) (hn : 1 ≤ n) :
    ∀ s : GenState, iterOpt (execSimple cfg input (.WriteChar 1)) n s =
      if s.tape s.pointer < 128 then
        some { s with output := s.output ++ List.replicate n (s.tape s.pointer) }
      else none := by
  induction n, hn using Nat.le_induction with
  | base =>
    intro s
    by_cases h : s.tape s.pointer < 128 <;>
      simp [iterOpt, execSimple, h]
  | succ n hn ih =>
    intro s
    rw [iterOpt]
    by_cases h : s.tape s.pointer < 128
    · simp only [execSimple, if_pos h]
      rw [ih]
      dsimp only
      rw [if_pos h]
      congr 2
      simp [List.replicate_succ]
    · simp only [execSimple, if_neg h]

/-- C5 counterexample: the generator casts the repeat count to `u8`
(`count as u8`, `generator.rs` line 113), so 256 consecutive `+` under the
Abort overflow policy compile to `checked_add(0)`.  On a zero cell the
single emitted statement succeeds and leaves the cell at 0, while 256
applications of the single-increment statement abort: the single statement
does not have the same effect as `n` repetitions. -/
theorem c5_count_truncation_counterexample :
    let cfg : BrainfuckToRust :=
      { memory_size := 30000, pointer_safety := .None,
        overflow_behavior := .Abort, cell_size := .U8,
        fixed_input := none, eof_behavior := .NoChange }
    genStatement cfg .ValueAdd 256 = some (.CellAddChecked 0) ∧
    (((genStatement cfg .ValueAdd 256).bind
        (fun st => execSimple cfg [] st genInit)).isSome = true) ∧
    (((genStatement cfg .ValueAdd 1).bind
        (fun st => iterOpt (execSimple cfg [] st) 256 genInit)).isNone = true) :=
  ⟨rfl, by decide, by decide⟩

/-- C5 (amended): for every non-bracket, non-read token with repeat count
`n ≥ 1` and every policy configuration with a positive memory size, the
single statement emitted by `generate_statements` has the same effect on
the generated program's state as `n` applications of the corresponding
single-instruction statement, *provided* `n ≤ 255` for cell-increment and
cell-decrement (the emitted literal is the count cast to `u8`) and, for
pointer-decrement under the wrap policy, `n ≤ memory_size + pointer` (the
emitted `MEM_SIZE - (n - pointer)` underflows `usize` otherwise). -/
theorem c5_repeat_folding_amended (cfg : BrainfuckToRust) (tok : Token) (n : Nat)
    (input : List Nat) (s : GenState)
    (hn : 1 ≤ n)
    (_hM : 0 < cfg.memory_size)
    (hnotbr : tok ≠ .LoopStart ∧ tok ≠ .LoopEnd ∧ tok ≠ .Read)
    (hcell : (tok = .ValueAdd ∨ tok = .ValueSub) → n ≤ 255)
    (hwrap : tok = .PointerSub → cfg.pointer_safety = .Wrap →
      n ≤ cfg.memory_size + s.pointer) :
    (genStatement cfg tok n).bind (fun st => execSimple cfg input st s) =
    (genStatement cfg tok 1).bind (fun st => iterOpt (execSimple cfg input st) n s) := by
  obtain ⟨hbr1, hbr2, hbr3⟩ := hnotbr
  cases tok with
  | LoopStart => exact absurd rfl hbr1
  | LoopEnd => exact absurd rfl hbr2
  | Read => exact absurd rfl hbr3
  | PointerAdd =>
    cases hps : cfg.pointer_safety with
    | Wrap =>
      simp only [genStatement, hps, Option.bind]
      rw [ptrAddWrap_iter cfg input n hn]
      simp only [execSimple]
    | Clamp =>
      simp only [genStatement, hps, Option.bind]
      rw [ptrAddClamp_iter cfg input n hn]
      simp only [execSimple]
    | None =>
      simp only [genStatement, hps, Option.bind]
      rw [ptrAddRaw_iter cfg input n hn]
      simp only [execSimple]
  | PointerSub =>
    cases hps : cfg.pointer_safety with
    | Wrap =>
      simp only [genStatement, hps, Option.bind]
      rw [ptrSubWrap_iter cfg input n s (hwrap rfl hps)]
      simp only [execSimple]
    | Clamp =>
      simp only [genStatement, hps, Option.bind]
      rw [ptrSubClamp_iter cfg input n hn]
      simp only [execSimple]
      congr 2
      omega
    | None =>
      simp only [genStatement, hps, Option.bind]
      rw [ptrSubRaw_iter cfg input n hn]
      simp only [execSimple]
  | ValueAdd =>
    have hc : n ≤ 255 := hcell (Or.inl rfl)
    have hk : n % 256 = n := Nat.mod_eq_of_lt (by omega)
    cases hob : cfg.overflow_behavior with
    | Wrap =>
      simp only [genStatement, hob, Option.bind, hk, (show (1 : Nat) % 256 = 1 by norm_num)]
      rw [cellAddWrap_iter cfg input n hn]
      simp only [execSimple]
    | None =>
      simp only [genStatement, hob, Option.bind, hk, (show (1 : Nat) % 256 = 1 by norm_num)]
      rw [show execSimple cfg input (Stmt.CellAddRaw 1) =
            execSimple cfg input (Stmt.CellAddWrapping 1) from rfl]
      rw [cellAddWrap_iter cfg input n hn]
      simp only [execSimple]
    | Abort =>
      simp only [genStatement, hob, Option.bind, hk, (show (1 : Nat) % 256 = 1 by norm_num)]
      rw [cellAddChecked_iter cfg input n hn]
      simp only [execSimple]
  | ValueSub =>
    have hc : n ≤ 255 := hcell (Or.inr rfl)
    have hk : n % 256 = n := Nat.mod_eq_of_lt (by omega)
    have hm : 256 ≤ cfg.cell_size.modulus := by
      cases cfg.cell_size <;> norm_num [CellSize.modulus]
    cases hob : cfg.overflow_behavior with
    | Wrap =>
      simp only [genStatement, hob, Option.bind, hk, (show (1 : Nat) % 256 = 1 by norm_num)]
      rw [cellSubWrap_iter cfg input n hn (by omega)]
      simp only [execSimple, wrapSub]
      rw [Nat.mod_eq_of_lt (show n < cfg.cell_size.modulus by omega)]
    | None =>
      simp only [genStatement, hob, Option.bind, hk, (show (1 : Nat) % 256 = 1 by norm_num)]
      rw [show execSimple cfg input (Stmt.CellSubRaw 1) =
            execSimple cfg input (Stmt.CellSubWrapping 1) from rfl]
      rw [cellSubWrap_iter cfg input n hn (by omega)]
      simp only [execSimple, wrapSub]
      rw [Nat.mod_eq_of_lt (show n < cfg.cell_size.modulus by omega)]
    | Abort =>
      simp only [genStatement, hob, Option.bind, hk, (show (1 : Nat) % 256 = 1 by norm_num)]
      rw [cellSubChecked_iter cfg input n hn]
      simp only [execSimple]
  | Write =>
    simp only [genStatement, Option.bind]
    rw [writeChar_iter cfg input n hn]
    simp only [execSimple]

/-- C5 witness: the amended theorem applied to two `+` under the main
configuration, from the initial state. -/
theorem c5_repeat_folding_witness :
    (1 ≤ 2 ∧ 0 < mainConfig.memory_size) ∧
    (genStatement mainConfig .ValueAdd 2).bind
        (fun st => execSimple mainConfig [] st genInit) =
      (genStatement mainConfig .ValueAdd 1).bind
        (fun st => iterOpt (execSimple mainConfig [] st) 2 genInit) :=
  ⟨⟨by decide, by decide⟩,
    c5_repeat_folding_amended mainConfig .ValueAdd 2 [] genInit (by decide) (by decide)
      ⟨by decide, by decide, by decide⟩ (fun _ => by decide)
      (fun h => absurd h (by decide))⟩

/-! ### Generator failure analysis (claims C7 and C9) -/

theorem allTok_append [TokenExt T] (p : T → Bool) (a b : List (Segment T)) :
    allTok p (a ++ b) = (allTok p a && allTok p b) := by
  induction a with
  | nil => simp [allTok]
  | cons seg rest ih =>
    cases seg with
    | Executable ts => simp [allTok, ih, Bool.and_assoc]
    | Loop body => simp [allTok, ih, Bool.and_assoc]

theorem allTok_not_anyTok [TokenExt T] (q : T → Bool) :
    (segs : List (Segment T)) → allTok (fun t => !q t) segs = true →
    anyTok q segs = false
  | [], _ => by simp [anyTok]
  | .Executable ts :: rest, h => by
    simp only [allTok, Bool.and_eq_true] at h
    simp only [anyTok, Bool.or_eq_false_iff]
    refine ⟨?_, allTok_not_anyTok q rest h.2⟩
    simp only [List.any_eq_false]
    intro t ht
    have := (List.all_eq_true.mp h.1) t ht
    simpa using this
  | .Loop body :: rest, h => by
    simp only [allTok, Bool.and_eq_true] at h
    simp only [anyTok, Bool.or_eq_false_iff]
    exact ⟨allTok_not_anyTok q body h.1, allTok_not_anyTok q rest h.2⟩

theorem genStatement_none_iff (cfg : BrainfuckToRust) (tok : Token) (n : Nat)
    (hb : tok ≠ .LoopStart ∧ tok ≠ .LoopEnd) :
    (genStatement cfg tok n = none ↔ (tok = .Read ∧ 1 < n)) := by
  cases tok with
  | LoopStart => exact absurd rfl hb.1
  | LoopEnd => exact absurd rfl hb.2
  | Read =>
    by_cases h : 1 < n
    · simp [genStatement, h]
    · simp [genStatement, h]
  | PointerAdd => simp [genStatement]
  | PointerSub => simp [genStatement]
  | ValueAdd => simp [genStatement]
  | ValueSub => simp [genStatement]
  | Write => simp [genStatement]

theorem generateStatements_none_iff [TokenExt T] (cfg : BrainfuckToRust) (l : List T)
    (hb : ∀ t ∈ l, TokenExt.token t ≠ .LoopStart ∧ TokenExt.token t ≠ .LoopEnd) :
    (generateStatements cfg l = none ↔
      ∃ t ∈ l, TokenExt.token t = .Read ∧ 1 < TokenExt.count t) := by
  induction l with
  | nil => simp [generateStatements]
  | cons t rest ih =>
    have hhd := genStatement_none_iff cfg (TokenExt.token t) (TokenExt.count t)
      (hb t (List.mem_cons_self t rest))
    have ihr := ih (fun u hu => hb u (List.mem_cons_of_mem t hu))
    rw [generateStatements]
    cases hg : genStatement cfg (TokenExt.token t) (TokenExt.count t) with
    | none =>
      have := hhd.mp hg
      simp only [true_iff]
      exact ⟨t, List.mem_cons_self t rest, this⟩
    | some stmt =>
      cases hr : generateStatements cfg rest with
      | none =>
        have := ihr.mp hr
        simp only [true_iff]
        obtain ⟨u, hu, hp⟩ := this
        exact ⟨u, List.mem_cons_of_mem t hu, hp⟩
      | some stmts =>
        simp only [reduceCtorEq, false_iff]
        intro hcontra
        obtain ⟨u, hu, hp⟩ := hcontra
        rcases List.mem_cons.mp hu with rfl | hu2
        · exact absurd (hhd.mpr hp) (by simp [hg])
        · exact absurd (ihr.mpr ⟨u, hu2, hp⟩) (by simp [hr])

theorem generateBody_none_iff [TokenExt T] (cfg : BrainfuckToRust) :
    (segs : List (Segment T)) → noBrackets segs = true →
    (generateBody cfg segs = none ↔ hasRepeatedRead segs = true)
  | [], _ => by simp [generateBody, hasRepeatedRead, anyTok]
  | .Executable ts :: rest, h => by
    simp only [noBrackets, allTok, Bool.and_eq_true] at h
    have hts : ∀ t ∈ ts, TokenExt.token t ≠ .LoopStart ∧ TokenExt.token t ≠ .LoopEnd := by
      intro t ht
      have := (List.all_eq_true.mp h.1) t ht
      constructor <;> (intro hcontra; simp [hcontra] at this)
    have hexe := generateStatements_none_iff cfg ts hts
    have ihr := generateBody_none_iff cfg rest h.2
    rw [generateBody]
    simp only [hasRepeatedRead, anyTok, Bool.or_eq_true]
    cases hg : generateStatements cfg ts with
    | none =>
      obtain ⟨u, hu, hp⟩ := hexe.mp hg
      simp only [true_iff]
      exact Or.inl (List.any_eq_true.mpr ⟨u, hu, by simp [hp.1, hp.2]⟩)
    | some stmts =>
      cases hr : generateBody cfg rest with
      | none =>
        simp only [true_iff]
        exact Or.inr (ihr.mp hr)
      | some stmts2 =>
        simp only [reduceCtorEq, false_iff]
        intro hcontra
        rcases hcontra with hc | hc
        · obtain ⟨u, hu, hp⟩ := List.any_eq_true.mp hc
          have : TokenExt.token u = Token.Read ∧ 1 < TokenExt.count u := by
            constructor
            · have := (Bool.and_eq_true _ _).mp hp
              exact eq_of_beq this.1
            · have := (Bool.and_eq_true _ _).mp hp
              exact of_decide_eq_true this.2
          exact absurd (hexe.mpr ⟨u, hu, this⟩) (by simp [hg])
        · exact absurd (ihr.mpr hc) (by simp [hr])
  | .Loop body :: rest, h => by
    simp only [noBrackets, allTok, Bool.and_eq_true] at h
    have ihb := generateBody_none_iff cfg body h.1
    have ihr := generateBody_none_iff cfg rest h.2
    rw [generateBody]
    simp only [hasRepeatedRead, anyTok, Bool.or_eq_true]
    cases hb2 : generateBody cfg body with
    | none =>
      simp only [true_iff]
      exact Or.inl (ihb.mp hb2)
    | some stmts =>
      cases hr : generateBody cfg rest with
      | none =>
        simp only [true_iff]
        exact Or.inr (ihr.mp hr)
      | some stmts2 =>
        simp only [reduceCtorEq, false_iff]
        intro hcontra
        rcases hcontra with hc | hc
        · exact absurd (ihb.mpr hc) (by simp [hb2])
        · exact absurd (ihr.mpr hc) (by simp [hr])

theorem allTok_flushRun [TokenExt T] (p : T → Bool) (code : List T)
    (hc : code.all p = true) : allTok p (flushRun code) = true := by
  rw [flushRun]
  split
  · simp [allTok]
  · simp [allTok, hc]

theorem segmentInner_allTok [TokenExt T] (p : T → Bool) :
    (l code : List T) →
    (∀ t ∈ l, (TokenExt.token t ≠ .LoopStart ∧ TokenExt.token t ≠ .LoopEnd) →
      p t = true) →
    code.all p = true →
    allTok p (Tokens.segmentInner l code).1 = true
  | [], _code, _, _ => by simp [Tokens.segmentInner, allTok]
  | t :: rest, code, hl, hc => by
    have hrest : ∀ u ∈ rest,
        (TokenExt.token u ≠ .LoopStart ∧ TokenExt.token u ≠ .LoopEnd) → p u = true :=
      fun u hu => hl u (List.mem_cons_of_mem t hu)
    rw [Tokens.segmentInner]
    cases htok : TokenExt.token t
    case LoopStart =>
      dsimp only
      rw [allTok_append, Bool.and_eq_true]
      refine ⟨allTok_flushRun p code hc, ?_⟩
      simp only [allTok, Bool.and_eq_true]
      exact ⟨segmentInner_allTok p rest [] hrest (by simp),
        segmentInner_allTok p (rest.drop ((Tokens.segmentInner rest []).2 + 1)) []
          (fun u hu h2 => hrest u (List.drop_subset _ rest hu) h2) (by simp)⟩
    case LoopEnd =>
      dsimp only
      exact allTok_flushRun p code hc
    all_goals
      dsimp only
      refine segmentInner_allTok p rest (code ++ [t]) hrest ?_
      rw [List.all_append]
      simp only [hc, List.all_cons, List.all_nil, Bool.and_true, Bool.true_and]
      exact hl t (List.mem_cons_self t rest) (by simp [htok])
  termination_by l _ => l.length
  decreasing_by all_goals (simp only [List.length_drop, List.length_cons]; omega)

theorem rle_no_repeated_read (cs : List Char) :
    (Repeated.tokenize cs).all
      (fun r => !(TokenExt.token r == Token.Read && decide (1 < TokenExt.count r))) =
      true := by
  rw [List.all_eq_true]
  intro r hr
  rw [Repeated.tokenize] at hr
  have hc2 : mergeable r.token = true ∨ r.count = 1 := by
    cases h : Token.tokenize cs with
    | nil => rw [h] at hr; simp [Repeated.fromTokens] at hr
    | cons t rest =>
      rw [h, Repeated.fromTokens] at hr
      rcases rleRun_specials rest t 1 r hr with h1 | h1 | h1
      · exact Or.inl h1
      · exact Or.inr h1
      · exact Or.inr h1.2
  show (!(r.token == Token.Read && decide (1 < r.count))) = true
  rcases hc2 with hm | h1
  · have hne : r.token ≠ Token.Read := by
      intro he
      rw [he] at hm
      simp [mergeable] at hm
    simp [hne]
  · simp [h1]

/-- C7: the generator (with its two process-aborting arms modelled as
failure values) fails if and only if it encounters a read token with repeat
count above 1, for every file whose `Executable` segments are bracket-free
(the precondition the `unreachable!` arm documents, satisfied by every file
the structurer builds).  On failure no output is produced (`none`), and the
generator is a pure function of the file and the configuration, so nothing
is mutated and the caller fully recovers. -/
theorem c7_generator_failure_iff {T : Type} [TokenExt T] (cfg : BrainfuckToRust)
    (file : File T) (hb : noBrackets file.segments = true) :
    (generate cfg file = none ↔ hasRepeatedRead file.segments = true) :=
  generateBody_none_iff cfg file.segments hb

/-- C7 witness: a hand-built file holding one read token of count 2 makes
the generator fail. -/
theorem c7_generator_failure_witness :
    noBrackets [Segment.Executable [(⟨Token.Read, 2⟩ : Repeated)]] = true ∧
    (generate mainConfig
        { segments := [Segment.Executable [(⟨Token.Read, 2⟩ : Repeated)]],
          needs_input := true } = none ↔
      hasRepeatedRead [Segment.Executable [(⟨Token.Read, 2⟩ : Repeated)]] = true) :=
  ⟨by simp [noBrackets, allTok],
    c7_generator_failure_iff mainConfig _ (by simp [noBrackets, allTok])⟩

/-- C9: in both tokenizer variants every token whose instruction is read,
loop-start or loop-end has repeat count exactly 1 (a bare `Token` always
counts 1; the run-length tokenizer never merges these three instructions),
and consequently generation from any parsed file never reaches the
repeated-read `unimplemented!` arm nor the bracket `unreachable!` arm: it
always succeeds. -/
theorem c9_singleton_specials_generation_total (cs : List Char)
    (cfg : BrainfuckToRust) :
    (∀ t : Token, TokenExt.count t = 1) ∧
    (∀ r ∈ Repeated.tokenize cs,
      (r.token = .LoopStart ∨ r.token = .LoopEnd ∨ r.token = .Read) → r.count = 1) ∧
    (generate cfg (File.fromStr Repeated cs)).isSome = true := by
  refine ⟨fun t => rfl, ?_, ?_⟩
  · intro r hr hspecial
    rw [Repeated.tokenize] at hr
    cases h : Token.tokenize cs with
    | nil => rw [h] at hr; simp [Repeated.fromTokens] at hr
    | cons t rest =>
      rw [h, Repeated.fromTokens] at hr
      rcases rleRun_specials rest t 1 r hr with h1 | h1 | h1
      · rcases hspecial with hs | hs | hs <;> rw [hs] at h1 <;> simp [mergeable] at h1
      · exact h1
      · exact h1.2
  · have hnb : noBrackets
        (Tokens.segment (TokenExt.tokenize (T := Repeated) cs)) = true := by
      rw [Tokens.segment, noBrackets]
      exact segmentInner_allTok _ _ []
        (fun t _ hn => by simp [hn.1, hn.2]) (by simp)
    have hnr : hasRepeatedRead
        (Tokens.segment (TokenExt.tokenize (T := Repeated) cs)) = false := by
      rw [Tokens.segment, hasRepeatedRead]
      apply allTok_not_anyTok
      apply segmentInner_allTok
      · intro t ht _
        exact (List.all_eq_true.mp (rle_no_repeated_read cs)) t ht
      · simp
    simp only [generate, File.fromStr]
    cases hg : generateBody cfg
        (Tokens.segment (TokenExt.tokenize (T := Repeated) cs)) with
    | none =>
      have := (generateBody_none_iff cfg _ hnb).mp hg
      rw [hnr] at this
      exact absurd this (by simp)
    | some stmts => simp

/-- C9 witness: the theorem applied to the one-read source text. -/
theorem c9_singleton_specials_witness :
    (⟨Token.Read, 1⟩ : Repeated) ∈ Repeated.tokenize [','] ∧
    (⟨Token.Read, 1⟩ : Repeated).count = 1 ∧
    (generate mainConfig (File.fromStr Repeated [','])).isSome = true :=
  ⟨by decide,
    (c9_singleton_specials_generation_total [','] mainConfig).2.1
      ⟨Token.Read, 1⟩ (by decide) (by decide),
    (c9_singleton_specials_generation_total [','] mainConfig).2.2⟩

/-! ### `segment_inner` on balanced and unbalanced regions (claims C4 and C8) -/

theorem segmentInner_loopEnd [TokenExt T] (u : T) (hu : TokenExt.token u = .LoopEnd)
    (suffix code : List T) :
    Tokens.segmentInner (u :: suffix) code = (flushRun code, 0) := by
  rw [Tokens.segmentInner, hu]

/-- Processing a balanced region `l` followed by `suffix` from pending run
`code`: the region contributes the segments `scanLevel` describes, consumes
exactly `l.length` positions, and hands its final pending run to the scan
of `suffix`. -/
theorem segmentInner_balanced_append [TokenExt T] {l : List T} (hbal : Balanced l) :
    ∀ suffix code : List T,
      Tokens.segmentInner (l ++ suffix) code =
        ((scanLevel l code).1 ++ (Tokens.segmentInner suffix (scanLevel l code).2).1,
          l.length + (Tokens.segmentInner suffix (scanLevel l code).2).2) := by
  induction hbal with
  | nil =>
    intro suffix code
    simp [scanLevel]
  | flat t l ht1 ht2 hb ih =>
    intro suffix code
    rw [List.cons_append, Tokens.segmentInner, scanLevel]
    cases htok : TokenExt.token t
    case LoopStart => exact absurd htok ht1
    case LoopEnd => exact absurd htok ht2
    all_goals
      dsimp only
      rw [ih suffix (code ++ [t])]
      simp only [Prod.mk.injEq, List.length_cons]
      refine ⟨trivial, ?_⟩
      omega
  | brak t u body rest htls hule hbb hbr ihb ihr =>
    intro suffix code
    have hinner1 : Tokens.segmentInner ((body ++ u :: rest) ++ suffix) [] =
        (closedSegs body [], body.length) := by
      rw [show (body ++ u :: rest) ++ suffix = body ++ (u :: (rest ++ suffix)) by simp]
      rw [ihb (u :: (rest ++ suffix)) []]
      rw [segmentInner_loopEnd u hule]
      simp [closedSegs]
    have hinner2 : Tokens.segmentInner (body ++ u :: rest) [] =
        (closedSegs body [], body.length) := by
      rw [ihb (u :: rest) []]
      rw [segmentInner_loopEnd u hule]
      simp [closedSegs]
    have hdrop1 : ((body ++ u :: rest) ++ suffix).drop (body.length + 1) =
        rest ++ suffix := by
      rw [show (body ++ u :: rest) ++ suffix = (body ++ [u]) ++ (rest ++ suffix) by simp]
      rw [show body.length + 1 = (body ++ [u]).length by simp]
      exact List.drop_left _ _
    have hdrop2 : (body ++ u :: rest).drop (body.length + 1) = rest := by
      rw [show body ++ u :: rest = (body ++ [u]) ++ rest by simp]
      rw [show body.length + 1 = (body ++ [u]).length by simp]
      exact List.drop_left _ _
    rw [List.cons_append, Tokens.segmentInner, scanLevel]
    simp only [htls]
    rw [hinner1, hinner2]
    dsimp only
    rw [hdrop1, hdrop2, ihr suffix []]
    simp only [Prod.mk.injEq, List.length_cons, List.length_append]
    constructor
    · simp
    · omega

/-- The value of `segment_inner` on a balanced region with no suffix: the
scan of the region, with the trailing pending run dropped. -/
theorem segmentInner_balanced [TokenExt T] {l : List T} (hbal : Balanced l)
    (code : List T) :
    Tokens.segmentInner l code = ((scanLevel l code).1, l.length) := by
  have := segmentInner_balanced_append hbal [] code
  rw [List.append_nil] at this
  rw [this, Tokens.segmentInner]
  simp

/-- A balanced region terminated by a matching `LoopEnd`: the region's
segments with the pending run flushed, consuming exactly the region. -/
theorem segmentInner_closed [TokenExt T] {pre : List T} (hbal : Balanced pre)
    (u : T) (hu : TokenExt.token u = .LoopEnd) (rest code : List T) :
    Tokens.segmentInner (pre ++ u :: rest) code = (closedSegs pre code, pre.length) := by
  rw [segmentInner_balanced_append hbal (u :: rest) code]
  rw [segmentInner_loopEnd u hu]
  simp [closedSegs]

/-- C4: consumed-length accounting of `segment_inner`.  For a loop-start
whose balanced body is closed by a matching loop-end: (1) the recursive
call on the tokens after the `[` reports exactly `body.length` consumed
positions, so the caller's `iter.nth(count)` skips exactly the body plus
the matching close and resumes at the token right after it; (2) the caller
emits the loop followed by the structuring of `rest`, its own counter
adding `count + 2` for the full bracket pair; (3) on a loop-end the call
returns at once and the returned consumed length is `pre.length`,
excluding the loop-end token itself. -/
theorem c4_consumed_length_accounting {T : Type} [TokenExt T]
    (t u : T) (body rest code : List T)
    (ht : TokenExt.token t = .LoopStart) (hu : TokenExt.token u = .LoopEnd)
    (hbal : Balanced body) :
    (Tokens.segmentInner (body ++ u :: rest) ([] : List T)).2 = body.length ∧
    Tokens.segmentInner (t :: (body ++ u :: rest)) code =
      (flushRun code ++ Segment.Loop (closedSegs body []) ::
        (Tokens.segmentInner rest ([] : List T)).1,
       body.length + 2 + (Tokens.segmentInner rest ([] : List T)).2) ∧
    Tokens.segmentInner (body ++ u :: rest) code =
      (closedSegs body code, body.length) := by
  refine ⟨by rw [segmentInner_closed hbal u hu], ?_,
    segmentInner_closed hbal u hu rest code⟩
  rw [Tokens.segmentInner]
  simp only [ht]
  rw [segmentInner_closed hbal u hu rest []]
  dsimp only
  rw [show body ++ u :: rest = (body ++ [u]) ++ rest by simp]
  rw [show body.length + 1 = (body ++ [u]).length by simp]
  rw [List.drop_left]

/-- C4 witness: the theorem applied to the token sequence `+[-]`-style
instance `[ + ] .` (body `+`, matched close, then a write). -/
theorem c4_consumed_length_witness :
    (Tokens.segmentInner
        ([(⟨.ValueAdd, 1⟩ : Repeated)] ++ ⟨.LoopEnd, 1⟩ :: [⟨.Write, 1⟩])
        ([] : List Repeated)).2 = 1 :=
  (c4_consumed_length_accounting (⟨.LoopStart, 1⟩ : Repeated) ⟨.LoopEnd, 1⟩
    [⟨.ValueAdd, 1⟩] [⟨.Write, 1⟩] [] rfl rfl
    (Balanced.flat _ _ (by decide) (by decide) Balanced.nil)).1

/-- C8: behaviour on unbalanced brackets.  (1) A loop-start with no
matching loop-end consumes the entire remainder of the stream as that
loop's body and returns normally (the reported count even accounts a
nonexistent close: `body.length + 2`); the loop body it builds is the scan
of the remainder with its own trailing run dropped.  (2) A loop-end with no
matching loop-start makes the top level return early: every token after
that loop-end is silently discarded from the result, which equals the
result of structuring the stream cut right after that loop-end. -/
theorem c8_unbalanced_brackets {T : Type} [TokenExt T]
    (t u : T) (body pre rest code : List T)
    (ht : TokenExt.token t = .LoopStart) (hu : TokenExt.token u = .LoopEnd)
    (hbody : Balanced body) (hpre : Balanced pre) :
    Tokens.segmentInner (t :: body) code =
      (flushRun code ++ [Segment.Loop (scanLevel body ([] : List T)).1],
        body.length + 2) ∧
    Tokens.segment (pre ++ u :: rest) = Tokens.segment (pre ++ [u]) ∧
    Tokens.segment (pre ++ u :: rest) = closedSegs pre ([] : List T) := by
  have hnil : Tokens.segmentInner ([] : List T) ([] : List T) = ([], 0) := by
    rw [Tokens.segmentInner]
  refine ⟨?_, ?_, ?_⟩
  · rw [Tokens.segmentInner]
    simp only [ht]
    rw [segmentInner_balanced hbody []]
    dsimp only
    rw [List.drop_eq_nil_of_le (by omega), hnil]
    simp
  · rw [Tokens.segment, Tokens.segment,
      segmentInner_closed hpre u hu rest [],
      segmentInner_closed hpre u hu [] []]
  · rw [Tokens.segment, segmentInner_closed hpre u hu rest []]

/-- C8 witness: the theorem applied to a dangling close after a `+`,
followed by a discarded write. -/
theorem c8_unbalanced_brackets_witness :
    Tokens.segment ([(⟨.ValueAdd, 1⟩ : Repeated)] ++ ⟨.LoopEnd, 1⟩ :: [⟨.Write, 1⟩]) =
      Tokens.segment ([(⟨.ValueAdd, 1⟩ : Repeated)] ++ [⟨.LoopEnd, 1⟩]) :=
  (c8_unbalanced_brackets (⟨.LoopStart, 1⟩ : Repeated) ⟨.LoopEnd, 1⟩
    ([] : List Repeated) [⟨.ValueAdd, 1⟩] [⟨.Write, 1⟩] [] rfl rfl Balanced.nil
    (Balanced.flat _ _ (by decide) (by decide) Balanced.nil)).2.1

/-- C6 witness: the amended theorem applied to the two-read source text. -/
theorem c6_rle_merging_witness :
    (⟨Token.Read, 1⟩ : Repeated) ∈ Repeated.tokenize [',', ','] ∧
    (⟨Token.Read, 1⟩ : Repeated).count = 1 :=
  ⟨by decide, (c6_rle_merging_amended [',', ',']).2.1 ⟨Token.Read, 1⟩ (by decide) (by decide)⟩

end BfSpec
